import Mathlib

/-!
Verification of the computational-geometry engine of the
cell_type_constellations repository.

The development shallowly embeds the geometry code of
src/cell_type_constellations/svg/hull.py,
src/cell_type_constellations/svg/hull_utils.py,
src/cell_type_constellations/svg/fov.py and
src/cell_type_constellations/cells/data_cache.py over exact rational
coordinates.  Machine floats are modelled by the rationals (for the
combinatorial hull/merge code, whose branch structure is what the claims
are about) and by the reals (for the trigonometric ribbon-width code).

The repository imports two modules whose source is not part of the
reviewed tree: cell_type_constellations.utils.geometry (rot,
cross_product_2d_bulk, do_intersect, find_intersection_pt) and
cell_type_constellations.hulls.leaf_splitter
(iteratively_subdivide_points).  Definitions standing in for those are
marked as modelled from the specification.
-/

attribute [local semireducible] Rat.add Rat.sub Rat.mul Rat.inv
  Rat.ofScientific List.mergeSort List.merge

namespace CellConst

/-- A 2-d point with exact rational coordinates. -/
abbrev Q2 := ℚ × ℚ

/-- Componentwise subtraction of 2-d vectors. -/
def vsub (a b : Q2) : Q2 := (a.1 - b.1, a.2 - b.2)

/-- Componentwise addition of 2-d vectors. -/
def vadd (a b : Q2) : Q2 := (a.1 + b.1, a.2 + b.2)

/-- Scalar multiple of a 2-d vector. -/
def vscale (t : ℚ) (a : Q2) : Q2 := (t * a.1, t * a.2)

/-- 2-d cross product, as computed by cross_product_2d_bulk:
the z-component of the cross product of (a.1, a.2, 0) and (b.1, b.2, 0). -/
def cross (a b : Q2) : ℚ := a.1 * b.2 - a.2 * b.1

/-- Squared euclidean distance between two points
(the quantity ((all_points[idx]-src_pt)**2).sum() in merge_bare_hulls). -/
def dsq (a b : Q2) : ℚ := (a.1 - b.1) ^ 2 + (a.2 - b.2) ^ 2

/-- The sign function np.sign restricted to rationals, valued in the
integers. -/
def qsign (q : ℚ) : Int := if q < 0 then -1 else if q = 0 then 0 else 1

/-- A segment is an ordered pair of endpoints, matching the two-element
lists stored by BareHull._set_segments. -/
abbrev Seg := Q2 × Q2

/-- Modelled from the spec: the GeometricPrimitives component provides a
segment-segment intersection test/point (find_intersection_pt in the
missing module cell_type_constellations.utils.geometry).  Two closed
segments are intersected by solving the two-line system; when the
direction vectors are not parallel and the solution parameters both lie
in the closed interval from 0 to 1 the unique common point is returned,
otherwise (disjoint, or parallel/collinear where no unique intersection
point exists) nothing is returned. -/
def find_intersection_pt (s0 s1 : Seg) : Option Q2 :=
  let p := s0.1
  let r := vsub s0.2 s0.1
  let q := s1.1
  let s := vsub s1.2 s1.1
  let d := cross r s
  if d = 0 then
    none
  else
    let t := cross (vsub q p) s / d
    let u := cross (vsub q p) r / d
    if 0 ≤ t ∧ t ≤ 1 ∧ 0 ≤ u ∧ u ≤ 1 then
      some (vadd p (vscale t r))
    else
      none

/-- BareHull (hull.py): a counterclockwise closed path of points stored
as an ordered list.  The color attribute plays no role in any of the
claims and is omitted. -/
structure BareHull where
  points : List Q2
deriving DecidableEq, Repr

/-- BareHull._set_segments, index part: the list of index pairs
(0,1), (1,2), ..., (n-2,n-1), (n-1,0).  The python code presupposes a
nonempty point list; on an empty list this embedding returns the empty
list. -/
def BareHull.isegs (h : BareHull) : List (ℕ × ℕ) :=
  if h.points.length = 0 then []
  else
    ((List.range (h.points.length - 1)).map (fun i => (i, i + 1)))
      ++ [(h.points.length - 1, 0)]

/-- BareHull._set_segments, point part: the segments as endpoint pairs. -/
def BareHull.segs (h : BareHull) : List Seg :=
  h.isegs.map (fun ab => (h.points.getD ab.1 0, h.points.getD ab.2 0))

/-- A scipy.spatial.ConvexHull result: the input point cloud together
with the indices of the hull vertices in traversal order. -/
structure SciHull where
  points : List Q2
  vertices : List ℕ
deriving DecidableEq, Repr

/-- One step of the monotone-chain scan: pop while the turn through the
new point is not a strict left turn. -/
def chainStep (pts : List Q2) (acc : List ℕ) (j : ℕ) : List ℕ :=
  match acc with
  | i1 :: i0 :: rest =>
      if cross (vsub (pts.getD i1 0) (pts.getD i0 0))
               (vsub (pts.getD j 0) (pts.getD i1 0)) ≤ 0 then
        chainStep pts (i0 :: rest) j
      else
        j :: acc
  | _ => j :: acc

/-- Andrew monotone-chain convex hull over point indices, returning the
hull vertex indices in counterclockwise order.  This embeds the external
scipy.spatial.ConvexHull in the one respect the code relies on: the
vertices attribute lists the hull vertices of the point cloud in
counterclockwise traversal order. -/
def convexHull (pts : List Q2) : SciHull :=
  let le : ℕ → ℕ → Bool := fun i j =>
    let p := pts.getD i 0
    let q := pts.getD j 0
    decide (p.1 < q.1 ∨ (p.1 = q.1 ∧ (p.2 < q.2 ∨ (p.2 = q.2 ∧ i ≤ j))))
  let sorted := (List.range pts.length).mergeSort le
  let lower := (sorted.foldl (chainStep pts) []).reverse
  let upper := (sorted.reverse.foldl (chainStep pts) []).reverse
  ⟨pts, lower.dropLast ++ upper.dropLast⟩

/-- The vertex cycle of a hull as a list of points
(hull.points[hull.vertices[ii]] for ii in order). -/
def SciHull.vertexPts (h : SciHull) : List Q2 :=
  h.vertices.map (fun i => h.points.getD i 0)

/-- Vertex i (cyclically) of an ordered vertex list. -/
def vtx (verts : List Q2) (i : ℕ) : Q2 := verts.getD (i % verts.length) 0

/-- Edge vector out of vertex i (cyclically): the quantity dst - src for
the edge from vertex i to vertex i+1 in pts_in_hull. -/
def evec (verts : List Q2) (i : ℕ) : Q2 :=
  vsub (vtx verts (i + 1)) (vtx verts i)

/-- The sign pts_in_hull computes for a point p against edge i of the
vertex cycle: np.sign of the cross product of (p - edge.start) with the
edge vector. -/
def sgnAt (verts : List Q2) (p : Q2) (i : ℕ) : Int :=
  qsign (cross (vsub p (vtx verts i)) (evec verts i))

/-- pts_in_hull (hull_utils.py), semantics for one point: the point
survives the edge loop exactly when its sign against every edge equals
its sign against the first edge.  (The batched implementation keeps a
mask of surviving points, records the first-edge signs into sgn_arr on
the first iteration, and on each later edge removes the points whose
sign differs; a point ends up True exactly when all its edge signs agree
with its first-edge sign.  On an empty vertex list the loop body never
runs and every point survives.) -/
def ptInHull (p : Q2) (verts : List Q2) : Bool :=
  ((List.range verts.length).map (sgnAt verts p)).all
    (fun s => s == sgnAt verts p 0)

/-- pts_in_hull applied to a batch of points against a scipy-style hull:
the boolean classification list. -/
def ptsInHull (pts : List Q2) (hull : SciHull) : List Bool :=
  pts.map (fun p => ptInHull p hull.vertexPts)

/-- The intersection enumeration of merge_bare_hulls: all pairs
(i0, i1, point) with i0 a segment index of the first hull, i1 a segment
index of the second, enumerated with i0 outermost (the order in which
the python loop appends to intersection_points). -/
def interPairs (b0 b1 : BareHull) : List (ℕ × ℕ × Q2) :=
  b0.segs.enum.flatMap (fun s0 =>
    b1.segs.enum.filterMap (fun s1 =>
      (find_intersection_pt s0.2 s1.2).map (fun pt => (s0.1, s1.1, pt))))

/-- Number of vertices of both hulls (n_all in merge_bare_hulls). -/
def nAll (b0 b1 : BareHull) : ℕ := b0.points.length + b1.points.length

/-- The shared point arena: first hull's vertices, then the second
hull's, then the intersection points, each addressed by its position. -/
def allPoints (b0 b1 : BareHull) : List Q2 :=
  b0.points ++ b1.points ++ (interPairs b0 b1).map (fun t => t.2.2)

/-- The default triple used for positional lookups into the enumerated
intersection list. -/
def noInter : ℕ × ℕ × Q2 := (0, 0, (0, 0))

/-- The dictionary bare0_to_1[i0], flattened: for segment i0 of the
first hull, the pairs (i1, arena index) of the intersections it carries,
in the insertion order of the python dict (ascending enumeration
position, hence ascending i1 for fixed i0).  The arena index of the k-th
enumerated intersection is n_all + k. -/
def lookup0 (b0 b1 : BareHull) (i0 : ℕ) : List (ℕ × ℕ) :=
  ((List.range (interPairs b0 b1).length).filter
      (fun k => decide (((interPairs b0 b1).getD k noInter).1 = i0))).map
    (fun k => (((interPairs b0 b1).getD k noInter).2.1, nAll b0 b1 + k))

/-- The dictionary bare1_to_0[i1], flattened, analogously (for fixed i1
the python insertion order is ascending i0, which is the enumeration
order). -/
def lookup1 (b0 b1 : BareHull) (i1 : ℕ) : List (ℕ × ℕ) :=
  ((List.range (interPairs b0 b1).length).filter
      (fun k => decide (((interPairs b0 b1).getD k noInter).2.1 = i1))).map
    (fun k => (((interPairs b0 b1).getD k noInter).1, nAll b0 b1 + k))

/-- The np.argsort step of merge_bare_hulls: sort a list of arena
indices by ascending squared distance of the addressed point from the
segment start point. -/
def sortByDsq (arena : List Q2) (srcPt : Q2) (ixs : List ℕ) : List ℕ :=
  ixs.mergeSort (fun a b =>
    decide (dsq (arena.getD a 0) srcPt ≤ dsq (arena.getD b 0) srcPt))

/-- The successor-map entries contributed by one segment (a, b) of a
hull with vertex-index offset off: the segment start links through the
carried intersection points (sorted by ascending squared distance from
the segment start) and finally to the segment end. -/
def segChain (off : ℕ) (arena : List Q2) (srcPt : Q2) (a b : ℕ)
    (ixs : List ℕ) : List (ℕ × ℕ) :=
  let sorted := sortByDsq arena srcPt ixs
  ((off + a) :: sorted).zip (sorted ++ [off + b])

/-- All successor-map entries of one hull (the dict new_hull built for
src_hull in merge_bare_hulls, as an insertion-ordered association
list).  The loop's assertions state exactly that no source index is
inserted twice and no destination index is reached twice, i.e. that the
keys and the values of this list are without duplicates. -/
def succEntries (off : ℕ) (arena : List Q2) (pts : List Q2)
    (isegs : List (ℕ × ℕ)) (ivals : ℕ → List ℕ) : List (ℕ × ℕ) :=
  isegs.flatMap (fun ab =>
    segChain off arena (pts.getD ab.1 0) ab.1 ab.2 (ivals ab.1))

/-- The successor map of the first hull in merge_bare_hulls. -/
def succ0 (b0 b1 : BareHull) : List (ℕ × ℕ) :=
  succEntries 0 (allPoints b0 b1) b0.points b0.isegs
    (fun a => (lookup0 b0 b1 a).map (fun x => x.2))

/-- The successor map of the second hull in merge_bare_hulls (vertex
indices offset by the first hull's point count). -/
def succ1 (b0 b1 : BareHull) : List (ℕ × ℕ) :=
  succEntries b0.points.length (allPoints b0 b1) b1.points b1.isegs
    (fun a => (lookup1 b0 b1 a).map (fun x => x.2))

/-- The starting-vertex selection of merge_bare_hulls: iterate over the
vertices of the convex hull of the full point arena, skipping vertices
that do not belong to the first hull, and keep overwriting starting_idx
with every vertex that does belong to it. -/
def startingIdx (b0 b1 : BareHull) : Option ℕ :=
  (convexHull (allPoints b0 b1)).vertices.foldl
    (fun acc v => if v < b0.points.length then some v else acc) none

/-- The perimeter walk of merge_bare_hulls, with explicit fuel standing
in for the unbounded python while loop: follow the successor map of the
current hull; stop successfully when the next index is the starting
index; after each step, switch to the other hull's map whenever the new
index is one of its keys.  A missing key (python KeyError) or exhausted
fuel yields none. -/
def walkSucc (maps : Bool → List (ℕ × ℕ)) (start : ℕ) :
    ℕ → Bool → ℕ → List ℕ → Option (List ℕ)
  | 0, _, _, _ => none
  | fuel + 1, cur, lastIdx, accRev =>
      match (maps cur).lookup lastIdx with
      | none => none
      | some nxt =>
          if nxt = start then some accRev.reverse
          else
            walkSucc maps start fuel
              (if ((maps !cur).lookup nxt).isSome then !cur else cur)
              nxt (nxt :: accRev)

/-- merge_bare_hulls (hull.py).  Returns none where the python function
would raise (assertion failure or nonterminating walk); otherwise some
list holding either the single merged hull or the two unmerged inputs.
In the zero/odd-intersection branch, containment is tested with
pts_in_hull against the convex hull of the other hull's points. -/
def mergeBareHulls (b0 b1 : BareHull) : Option (List BareHull) :=
  let inter := interPairs b0 b1
  if inter.length = 0 ∨ inter.length % 2 = 1 then
    let convex0 := convexHull b0.points
    if (ptsInHull b1.points convex0).all id then some [b0]
    else
      let convex1 := convexHull b1.points
      if (ptsInHull b0.points convex1).all id then some [b1]
      else some [b0, b1]
  else
    let arena := allPoints b0 b1
    match startingIdx b0 b1 with
    | none => none
    | some start =>
        match walkSucc
            (fun h => if h then succ1 b0 b1 else succ0 b0 b1) start
            (arena.length + 1) false start [start] with
        | none => none
        | some idxs =>
            some [⟨idxs.map (fun i => arena.getD i 0)⟩]

/-- The unordered index pairs (i0, i1) with i0 < i1 < n, in the
lexicographic order in which create_compound_bare_hull scans them. -/
def pairsIdx (n : ℕ) : List (ℕ × ℕ) :=
  (List.range n).flatMap (fun i0 =>
    (List.range (n - i0 - 1)).map (fun k => (i0, i0 + 1 + k)))

/-- One scanning pass of create_compound_bare_hull over the given index
pairs: stop at the first pair whose merge yields a single hull.  The
outer none models a python exception raised by merge_bare_hulls before
any successful merge was found; some none means the pass found no
mergeable pair; some (some (i0, i1, m)) is the first merge found. -/
def scanPairs (l : List BareHull) : List (ℕ × ℕ) →
    Option (Option (ℕ × ℕ × BareHull))
  | [] => some none
  | p :: rest =>
      match mergeBareHulls (l.getD p.1 ⟨[]⟩) (l.getD p.2 ⟨[]⟩) with
      | none => none
      | some m =>
          if m.length = 1 then some (some (p.1, p.2, m.headD ⟨[]⟩))
          else scanPairs l rest

/-- Rebuild the working list after a merge: the merged hull first, then
the hulls whose indices were not merged, in their original order. -/
def removeTwo (i0 i1 : ℕ) (l : List BareHull) : List BareHull :=
  (l.enum.filter (fun kt => decide (kt.1 ≠ i0) && decide (kt.1 ≠ i1))).map
    (fun kt => kt.2)

/-- The while loop of create_compound_bare_hull with explicit fuel: each
pass either finds a first mergeable pair (shrinking the list by one) or
terminates with the current list.  Fuel one more than the list length
always suffices because the length strictly decreases. -/
def mergeLoopFuel : ℕ → List BareHull → Option (List BareHull)
  | 0, _ => none
  | fuel + 1, l =>
      match scanPairs l (pairsIdx l.length) with
      | none => none
      | some none => some l
      | some (some t) => mergeLoopFuel fuel (t.2.2 :: removeTwo t.1 t.2.1 l)

/-- The iterative fixed-point merge driver of create_compound_bare_hull:
repeatedly merge the first mergeable pair until a full pass produces no
merge.  none models a python exception inside merge_bare_hulls. -/
def mergeLoopO (l : List BareHull) : Option (List BareHull) :=
  mergeLoopFuel (l.length + 1) l

/-- create_compound_bare_hull (hull.py): run the merge loop; an empty
result yields no compound hull, otherwise the surviving boundary list
is wrapped into a CompoundBareHull (whose label/name/n_cells metadata
plays no role in the claims and is omitted here). -/
def createCompoundBareHull (l : List BareHull) :
    Option (Option (List BareHull)) :=
  (mergeLoopO l).map (fun res => if res = [] then none else some res)

/-- The false-positive mask of hull_utils.evaluate_merger: pointwise
conjunction of a containment mask with the negated validity mask. -/
def fpMask (inHull validity : List Bool) : List Bool :=
  (inHull.zip validity).map (fun x => x.1 && !x.2)

/-- Pointwise disjunction of two masks (np.logical_or on parallel
boolean arrays). -/
def orMask (a b : List Bool) : List Bool :=
  (a.zip b).map (fun x => x.1 || x.2)

/-- evaluate_merger (hull_utils.py): accept the convex hull of the two
hulls' combined point sets when the increase in false-positive count is
at most half the sum of the individual false-positive counts, or
strictly below 5 percent of the number of test points contained in at
least one of the two hulls; otherwise reject the merger. -/
def evaluateMerger (hull0 hull1 : SciHull) (testPts : List Q2)
    (validity : List Bool) : Option SciHull :=
  let newHull := convexHull (hull0.points ++ hull1.points)
  let inNew := ptsInHull testPts newHull
  let fpNew := (fpMask inNew validity).count true
  let in0 := ptsInHull testPts hull0
  let in1 := ptsInHull testPts hull1
  let fp0m := fpMask in0 validity
  let fp1m := fpMask in1 validity
  let fpOld := (orMask fp0m fp1m).count true
  let fp0 := fp0m.count true
  let fp1 := fp1m.count true
  let deltaFp : ℚ := (fpNew : ℚ) - (fpOld : ℚ)
  if deltaFp ≤ (1 / 2) * ((fp0 : ℚ) + (fp1 : ℚ)) then some newHull
  else if deltaFp < (1 / 20) * ((orMask in0 in1).count true : ℚ) then
    some newHull
  else none

end CellConst

namespace CellConst

noncomputable section Ribbon

/-- np.sign on a real number. -/
def rsign (x : ℝ) : ℝ := if x < 0 then -1 else if x = 0 then 0 else 1

/-- The minimum visible ribbon width of fov._intersection_points, in
pixels. -/
def minWidth : ℝ := 1 / 4

/-- The nominal wedge half-angle of fov._intersection_points:
0.5 * pi * (n_neighbors / (n_cells * max_connection_ratio)). -/
def wedgeTheta (n nCells maxRat : ℝ) : ℝ :=
  (Real.pi / 2) * (n / (nCells * maxRat))

/-- The minimum-width adjustment of fov._intersection_points for one end
of a ribbon: when the minimum width is smaller than the diameter and the
chord width 2 * r * sin(theta) falls below the minimum width, the angle
is recomputed as sign(theta) * asin(0.5 * min_width / r). -/
def adjustedTheta (r theta : ℝ) : ℝ :=
  if minWidth < 2 * r then
    if 2 * r * |Real.sin theta| < minWidth then
      rsign theta * Real.arcsin ((1 / 2) * minWidth / r)
    else theta
  else theta

/-- The final wedge half-angle used for one end of a rendered ribbon
(the code treats the source and destination ends identically up to the
orientation of the rotation). -/
def endTheta (n nCells maxRat r : ℝ) : ℝ :=
  adjustedTheta r (wedgeTheta n nCells maxRat)

/-- The rendered chord width at one end of a ribbon: the distance
between the two corner points obtained by rotating the radius vector by
plus and minus the final half-angle, namely 2 * r * abs(sin(theta)). -/
def endChordWidth (n nCells maxRat r : ℝ) : ℝ :=
  2 * r * |Real.sin (endTheta n nCells maxRat r)|

end Ribbon

/-- Modelled from the spec: construction of a convex hull from a raw
point cloud fails (scipy raises, spec section 4.2 raises DegenerateHull)
exactly on degenerate input, namely fewer than 3 distinct points or all
points collinear.  Feasibility is expressed as the existence of three
points of the cloud in general position; this decides whether the calls
scipy.spatial.ConvexHull(...) inside get_hulls_for_leaf raise. -/
def canHull (pts : List Q2) : Bool :=
  pts.any (fun p => pts.any (fun q => pts.any (fun r =>
    decide (cross (vsub q p) (vsub r p) ≠ 0))))

/-- The subdivision filter of get_hulls_for_leaf: keep each subdivision
subset with at least min_pts indices whose selected points (indices in
ascending order) admit a convex hull. -/
def subHullsOf (pts : List Q2) (subdivisions : List (List ℕ))
    (minPts : ℕ) : List (List Q2) :=
  subdivisions.filterMap (fun s =>
    if s.length < minPts then none
    else
      let sel := (s.mergeSort (fun a b => a ≤ b)).map
        (fun i => pts.getD i 0)
      if canHull sel then some sel else none)

/-- get_hulls_for_leaf (data_cache.py).  The full point set of the leaf
is given directly; the subdivisions argument stands for the output of
iteratively_subdivide_points, an external collaborator whose source is
not part of the reviewed tree (modelled from the spec as an arbitrary
list of index subsets).  Returns none when the full point set admits no
convex hull; otherwise the filtered subdivision hulls, falling back to
the full point array when no subdivision survives. -/
def getHullsForLeaf (pts : List Q2) (subdivisions : List (List ℕ))
    (minPts : ℕ) : Option (List (List Q2)) :=
  if canHull pts then
    let subs := subHullsOf pts subdivisions minPts
    some (if subs = [] then [pts] else subs)
  else none

/-- The starting vertex of the perimeter walk as the specification
describes it: the first arena index on the outer hull's vertex list that
belongs to the first hull.  Stated from the spec for comparison with
startingIdx, which embeds the code. -/
def startingIdxSpec (b0 b1 : BareHull) : Option ℕ :=
  (convexHull (allPoints b0 b1)).vertices.find?
    (fun v => decide (v < b0.points.length))

/-- False-positive count of one hull on the test set: test points
classified inside the hull whose validity flag is false. -/
def fpCount (hull : SciHull) (tps : List Q2) (val : List Bool) : ℕ :=
  (fpMask (ptsInHull tps hull) val).count true

/-- False-positive count of the union of two hulls on the test set. -/
def fpUnionCount (h0 h1 : SciHull) (tps : List Q2) (val : List Bool) : ℕ :=
  (orMask (fpMask (ptsInHull tps h0) val) (fpMask (ptsInHull tps h1) val)).count
    true

/-- Number of test points contained in at least one of the two hulls. -/
def inUnionCount (h0 h1 : SciHull) (tps : List Q2) : ℕ :=
  (orMask (ptsInHull tps h0) (ptsInHull tps h1)).count true

/-! Concrete fixtures used by witnesses and counterexamples.  The two
crossing unit squares are the worked example of the specification's
testable-properties section; the notched polygon with a vertex-touching
triangle exercises the odd-intersection branch. -/

/-- The axis-aligned unit square, counterclockwise. -/
def unitSquare : BareHull := ⟨[(0, 0), (1, 0), (1, 1), (0, 1)]⟩

/-- The unit square shifted by one half in both coordinates. -/
def shiftedSquare : BareHull :=
  ⟨[(1/2, 1/2), (3/2, 1/2), (3/2, 3/2), (1/2, 3/2)]⟩

/-- A unit square far away from the origin (disjoint from unitSquare). -/
def farSquare : BareHull := ⟨[(10, 10), (11, 10), (11, 11), (10, 11)]⟩

/-- A small square strictly inside the unit square. -/
def innerSquare : BareHull :=
  ⟨[(1/4, 1/4), (3/4, 1/4), (3/4, 3/4), (1/4, 3/4)]⟩

/-- A counterclockwise square with a deep notch cut into its top edge;
its convex hull is the plain 10 by 10 square. -/
def notchHull : BareHull :=
  ⟨[(0, 0), (10, 0), (10, 10), (7, 10), (5, 2), (3, 10), (0, 10)]⟩

/-- A triangle whose first vertex lies exactly on a notch edge of
notchHull and whose boundary crosses that edge once more transversally:
its segments meet notchHull's in exactly three segment pairs, while all
its vertices lie strictly inside the convex hull of notchHull's
points. -/
def touchTri : BareHull := ⟨[(6, 6), (8, 6), (11/2, 8)]⟩

/-- A nondegenerate triangle point cloud. -/
def triPts : List Q2 := [(0, 0), (1, 0), (0, 1)]

/-- The mean of a polygon's vertices (np.mean along the point axis). -/
def centroidPt (verts : List Q2) : Q2 :=
  ((verts.map Prod.fst).sum / verts.length,
   (verts.map Prod.snd).sum / verts.length)

/-- Midpoint of two points: a point lying exactly on the edge between
them. -/
def midPt (a b : Q2) : Q2 := ((a.1 + b.1) / 2, (a.2 + b.2) / 2)

/-- The unit square as a bare vertex cycle. -/
def squareVerts : List Q2 := [(0, 0), (1, 0), (1, 1), (0, 1)]

/-! Theorems. -/

/-- C1: for BareHulls whose segments have zero pairwise intersections,
merge_bare_hulls returns [A] when every vertex of B is classified
strictly inside A (the code's containment test: pts_in_hull against the
convex hull of A's points), returns [B] when that fails but every vertex
of A is classified strictly inside B, and otherwise returns the
two-element list [A, B] unmerged.  The two containment conditions are
tested in this order by the code; for genuine hulls they are mutually
exclusive. -/
theorem merge_zero_inter_cases (b0 b1 : BareHull)
    (h : interPairs b0 b1 = []) :
    ((ptsInHull b1.points (convexHull b0.points)).all id = true →
      mergeBareHulls b0 b1 = some [b0]) ∧
    ((ptsInHull b1.points (convexHull b0.points)).all id = false →
      (ptsInHull b0.points (convexHull b1.points)).all id = true →
      mergeBareHulls b0 b1 = some [b1]) ∧
    ((ptsInHull b1.points (convexHull b0.points)).all id = false →
      (ptsInHull b0.points (convexHull b1.points)).all id = false →
      mergeBareHulls b0 b1 = some [b0, b1]) := by
  refine ⟨fun h1 => ?_, fun h1 h2 => ?_, fun h1 h2 => ?_⟩
  · simp [mergeBareHulls, h, h1]
  · simp [mergeBareHulls, h, h1, h2]
  · simp [mergeBareHulls, h, h1, h2]

/-- C1 witness: the unit square and a far-away square have no segment
intersections, neither is contained in the other, and the merge returns
both unmerged. -/
theorem merge_zero_inter_cases_witness :
    interPairs unitSquare farSquare = [] ∧
    mergeBareHulls unitSquare farSquare = some [unitSquare, farSquare] :=
  ⟨by decide,
   (merge_zero_inter_cases unitSquare farSquare (by decide)).2.2
     (by decide) (by decide)⟩

/-- C2 counterexample: the notched polygon and the vertex-touching
triangle have an odd number (three) of pairwise segment intersections,
yet merge_bare_hulls returns the one-element list holding only the
notched polygon, not the two-element list of both inputs: the odd
branch shares the containment fallback with the zero-intersection
branch, and every triangle vertex classifies inside the convex hull of
the notched polygon's points. -/
theorem merge_odd_inter_counterexample :
    (interPairs notchHull touchTri).length = 3 ∧
    mergeBareHulls notchHull touchTri = some [notchHull] := by decide

/-- C2 amended: with an odd number of pairwise segment intersections,
merge_bare_hulls applies the same containment fallback as the
zero-intersection case: it returns [A] when all of B's vertices classify
inside the convex hull of A's points, else [B] when all of A's vertices
classify inside the convex hull of B's points, and only otherwise the
two-element list [A, B]. -/
theorem merge_odd_inter_cases (b0 b1 : BareHull)
    (h : (interPairs b0 b1).length % 2 = 1) :
    mergeBareHulls b0 b1 = some
      (if (ptsInHull b1.points (convexHull b0.points)).all id then [b0]
       else if (ptsInHull b0.points (convexHull b1.points)).all id then [b1]
       else [b0, b1]) := by
  by_cases h1 : (ptsInHull b1.points (convexHull b0.points)).all id
  · simp [mergeBareHulls, h, h1]
  · by_cases h2 : (ptsInHull b0.points (convexHull b1.points)).all id <;>
      simp [mergeBareHulls, h, h1, h2]

/-- C2 amended witness: the amended description applied to the notched
polygon and the vertex-touching triangle. -/
theorem merge_odd_inter_cases_witness :
    (interPairs notchHull touchTri).length % 2 = 1 ∧
    mergeBareHulls notchHull touchTri = some
      (if (ptsInHull touchTri.points (convexHull notchHull.points)).all id
       then [notchHull]
       else if (ptsInHull notchHull.points
                  (convexHull touchTri.points)).all id then [touchTri]
       else [notchHull, touchTri]) :=
  ⟨by decide, merge_odd_inter_cases notchHull touchTri (by decide)⟩

/-- C3 counterexample: for the two crossing unit squares (two
intersections, even and nonzero) the first arena index on the outer
hull's vertex list belonging to hull A is 0, but the code's loop keeps
overwriting its choice and the walk therefore starts at vertex 3, the
last such index, not the first. -/
theorem starting_idx_counterexample :
    (interPairs unitSquare shiftedSquare).length = 2 ∧
    startingIdxSpec unitSquare shiftedSquare = some 0 ∧
    startingIdx unitSquare shiftedSquare = some 3 := by decide

/-- Folding an overwrite-on-match accumulator over a list yields the
last matching element (or the initial value when nothing matches). -/
theorem foldl_overwrite_eq_getLast (p : ℕ → Prop) [DecidablePred p] :
    ∀ (l : List ℕ) (init : Option ℕ),
      l.foldl (fun acc v => if p v then some v else acc) init
        = ((l.filter (fun v => decide (p v))).getLast?).elim init some
  | [], _ => rfl
  | a :: l, init => by
      rw [List.foldl_cons, foldl_overwrite_eq_getLast p l]
      by_cases hpa : p a
      · rcases hfl : l.filter (fun v => decide (p v)) with _ | ⟨b, bs⟩
        · simp [List.filter_cons, hpa, hfl]
        · cases hx : (b :: bs).getLast? with
          | none => simp [List.getLast?_eq_none_iff] at hx
          | some x =>
              simp [List.filter_cons, hpa, hfl, List.getLast?_cons_cons, hx]
      · simp [List.filter_cons, hpa]

/-- C3 amended: in the even nonzero branch of merge_bare_hulls the
perimeter walk starts at the last arena index, in the outer hull's
vertex-list order, that belongs to hull A (the loop has no break and
keeps overwriting starting_idx), not the first such index. -/
theorem starting_idx_is_last (b0 b1 : BareHull) :
    startingIdx b0 b1 =
      ((convexHull (allPoints b0 b1)).vertices.filter
        (fun v => decide (v < b0.points.length))).getLast? := by
  unfold startingIdx
  rw [foldl_overwrite_eq_getLast]
  cases hgl : ((convexHull (allPoints b0 b1)).vertices.filter
      (fun v => decide (v < b0.points.length))).getLast? <;> simp [hgl]

/-- The source indices of a segment chain: the segment start followed by
the sorted intersection indices. -/
theorem segChain_keys (off : ℕ) (arena : List Q2) (srcPt : Q2) (a b : ℕ)
    (ixs : List ℕ) :
    (segChain off arena srcPt a b ixs).map Prod.fst
      = (off + a) :: sortByDsq arena srcPt ixs := by
  unfold segChain
  rw [List.map_fst_zip]
  simp

/-- The destination indices of a segment chain: the sorted intersection
indices followed by the segment end. -/
theorem segChain_dsts (off : ℕ) (arena : List Q2) (srcPt : Q2) (a b : ℕ)
    (ixs : List ℕ) :
    (segChain off arena srcPt a b ixs).map Prod.snd
      = sortByDsq arena srcPt ixs ++ [off + b] := by
  unfold segChain
  rw [List.map_snd_zip]
  simp

/-- C4: in the successor-map construction of merge_bare_hulls, a segment
from index a to index b carrying intersection points links its start
index through exactly those intersection arena indices, inserted in
nondecreasing order of squared distance from the segment's start point,
before linking to the segment's original endpoint; the inserted sequence
is a permutation of the looked-up entries, so the order is determined by
the distance sort alone and not by any other iteration order. -/
theorem seg_chain_sorted_insertion (arena : List Q2) (srcPt : Q2)
    (off a b : ℕ) (ixs : List ℕ) :
    List.Pairwise
      (fun i j => dsq (arena.getD i 0) srcPt ≤ dsq (arena.getD j 0) srcPt)
      (sortByDsq arena srcPt ixs) ∧
    (sortByDsq arena srcPt ixs).Perm ixs ∧
    (segChain off arena srcPt a b ixs).map Prod.fst
      = (off + a) :: sortByDsq arena srcPt ixs ∧
    (segChain off arena srcPt a b ixs).map Prod.snd
      = sortByDsq arena srcPt ixs ++ [off + b] := by
  refine ⟨?_, ?_, ?_, ?_⟩
  · have hs := @List.sorted_mergeSort ℕ
      (fun i j =>
        decide (dsq (arena.getD i 0) srcPt ≤ dsq (arena.getD j 0) srcPt))
      (fun i j k hij hjk => by
        simp only [decide_eq_true_eq] at *
        exact le_trans hij hjk)
      (fun i j => by
        simp only [Bool.or_eq_true, decide_eq_true_eq]
        exact le_total _ _)
      ixs
    exact hs.imp (fun h => by simpa using h)
  · exact List.mergeSort_perm ixs _
  · exact segChain_keys off arena srcPt a b ixs
  · exact segChain_dsts off arena srcPt a b ixs

/-- The two sequential acceptance tests of evaluate_merger collapse to a
single disjunction, with half the sum written as a division and the
five percent threshold written over one hundred. -/
theorem merge_criterion_ite (x y p q u : ℚ) (hl : SciHull) :
    (if x - y ≤ 1 / 2 * (p + q) then some hl
     else if x - y < 1 / 20 * u then some hl else none)
    = if x - y ≤ (p + q) / 2 ∨ x - y < 5 / 100 * u then some hl
      else none := by
  by_cases h1 : x - y ≤ (p + q) / 2
  · rw [if_pos (show x - y ≤ 1 / 2 * (p + q) by linarith),
        if_pos (Or.inl h1)]
  · by_cases h2 : x - y < 5 / 100 * u
    · rw [if_neg (show ¬x - y ≤ 1 / 2 * (p + q) from fun hc =>
          h1 (by linarith)),
        if_pos (show x - y < 1 / 20 * u by linarith),
        if_pos (Or.inr h2)]
    · rw [if_neg (show ¬x - y ≤ 1 / 2 * (p + q) from fun hc =>
          h1 (by linarith)),
        if_neg (show ¬x - y < 1 / 20 * u from fun hc =>
          h2 (by linarith)),
        if_neg (show ¬(x - y ≤ (p + q) / 2 ∨ x - y < 5 / 100 * u) from
          fun hc => hc.elim h1 h2)]

/-- C7: evaluate_merger returns the convex hull of the two hulls'
combined point sets exactly when the increase in false-positive
containment (false positives of the combined hull minus false positives
of the union of the two hulls) is at most half the sum of the individual
false-positive counts, or strictly less than five percent of the number
of test points contained in at least one of the two hulls; otherwise it
returns nothing and the hulls stay separate. -/
theorem evaluate_merger_criterion (h0 h1 : SciHull) (tps : List Q2)
    (val : List Bool) :
    evaluateMerger h0 h1 tps val =
      if (fpCount (convexHull (h0.points ++ h1.points)) tps val : ℚ)
           - (fpUnionCount h0 h1 tps val : ℚ)
           ≤ ((fpCount h0 tps val : ℚ) + (fpCount h1 tps val : ℚ)) / 2
         ∨ (fpCount (convexHull (h0.points ++ h1.points)) tps val : ℚ)
           - (fpUnionCount h0 h1 tps val : ℚ)
           < (5 / 100) * (inUnionCount h0 h1 tps : ℚ)
      then some (convexHull (h0.points ++ h1.points))
      else none := by
  exact merge_criterion_ite
    (fpCount (convexHull (h0.points ++ h1.points)) tps val : ℚ)
    (fpUnionCount h0 h1 tps val : ℚ)
    (fpCount h0 tps val : ℚ) (fpCount h1 tps val : ℚ)
    (inUnionCount h0 h1 tps : ℚ)
    (convexHull (h0.points ++ h1.points))

/-- C10: get_hulls_for_leaf returns nothing exactly when a convex hull
cannot be constructed from the leaf's full point set; otherwise it
returns a non-empty list, and when no subdivision subset with at least
min_pts points admits a convex hull, the returned list is the fallback
holding the full point array as its single element, never the empty
list. -/
theorem get_hulls_for_leaf_cases (pts : List Q2) (subs : List (List ℕ))
    (minPts : ℕ) :
    (getHullsForLeaf pts subs minPts = none ↔ canHull pts = false) ∧
    (∀ r, getHullsForLeaf pts subs minPts = some r →
      r ≠ [] ∧ (subHullsOf pts subs minPts = [] → r = [pts])) := by
  unfold getHullsForLeaf
  by_cases hc : canHull pts
  · refine ⟨by simp [hc], fun r hr => ?_⟩
    rcases hsub : subHullsOf pts subs minPts with _ | ⟨s, ss⟩
    · simp [hc, hsub] at hr
      subst hr
      simp
    · simp [hc, hsub] at hr
      subst hr
      simp
  · simp [hc]

/-- C10 witness: a nondegenerate triangle cloud with no subdivisions
yields the fallback list holding the full point array. -/
theorem get_hulls_for_leaf_cases_witness :
    getHullsForLeaf triPts [] 10 = some [triPts] ∧
    [triPts] ≠ ([] : List (List Q2)) ∧
    (subHullsOf triPts [] 10 = [] → [triPts] = [triPts]) :=
  ⟨by decide, (get_hulls_for_leaf_cases triPts [] 10).2 [triPts] (by decide)⟩

/-- A list containing two distinct elements has length at least two. -/
theorem two_le_length_of_mem {α : Type} {l : List α} {a b : α}
    (ha : a ∈ l) (hb : b ∈ l) (hab : a ≠ b) : 2 ≤ l.length := by
  match l with
  | [] => cases ha
  | [x] =>
      rw [List.mem_singleton] at ha hb
      exact absurd (ha.trans hb.symm) hab
  | x :: y :: ys => simp

/-- A pair found by the scanning pass is one of the scanned pairs. -/
theorem scanPairs_mem_of_found (l : List BareHull) :
    ∀ (ps : List (ℕ × ℕ)) (i0 i1 : ℕ) (m : BareHull),
      scanPairs l ps = some (some (i0, i1, m)) → (i0, i1) ∈ ps := by
  intro ps
  induction ps with
  | nil => intro i0 i1 m h; simp [scanPairs] at h
  | cons p rest ih =>
      intro i0 i1 m h
      unfold scanPairs at h
      rcases hm : mergeBareHulls (l.getD p.1 ⟨[]⟩) (l.getD p.2 ⟨[]⟩) with
        _ | ml
      · simp only [hm] at h
        cases h
      · simp only [hm] at h
        by_cases hlen : ml.length = 1
        · rw [if_pos hlen] at h
          simp only [Option.some.injEq, Prod.mk.injEq] at h
          obtain ⟨h0, h1, _⟩ := h
          exact List.mem_cons.2 (Or.inl (by
            cases p with
            | mk a b => simp only at h0 h1; rw [← h0, ← h1]))
        · rw [if_neg hlen] at h
          exact List.mem_cons_of_mem p (ih i0 i1 m h)

/-- Scanned pairs are strictly increasing index pairs below the list
length. -/
theorem pairsIdx_lt {n i0 i1 : ℕ} (h : (i0, i1) ∈ pairsIdx n) :
    i0 < i1 ∧ i1 < n := by
  unfold pairsIdx at h
  rw [List.mem_flatMap] at h
  obtain ⟨a, ha, hmem⟩ := h
  rw [List.mem_map] at hmem
  obtain ⟨k, hk, hpair⟩ := hmem
  rw [List.mem_range] at ha hk
  obtain ⟨h0, h1⟩ : i0 = a ∧ i1 = a + 1 + k :=
    ⟨(congrArg Prod.fst hpair).symm, (congrArg Prod.snd hpair).symm⟩
  omega

/-- Rebuilding the working list after a merge of two valid indices
strictly shrinks it. -/
theorem removeTwo_cons_length_lt (i0 i1 : ℕ) (l : List BareHull)
    (m : BareHull) (h01 : i0 < i1) (h1 : i1 < l.length) :
    (m :: removeTwo i0 i1 l).length < l.length := by
  unfold removeTwo
  rw [List.length_cons, List.length_map, ← List.countP_eq_length_filter]
  have hmap := List.countP_map
    (fun k => decide (k ≠ i0) && decide (k ≠ i1)) Prod.fst l.enum
  rw [List.enum_map_fst] at hmap
  have hq : (List.countP (fun kt => decide (kt.1 ≠ i0) && decide (kt.1 ≠ i1))
      l.enum) = List.countP (fun k => decide (k ≠ i0) && decide (k ≠ i1))
      (List.range l.length) := by
    rw [hmap]; rfl
  rw [hq]
  have hsplit := List.length_eq_countP_add_countP
    (fun k => decide (k ≠ i0) && decide (k ≠ i1)) (List.range l.length)
  rw [List.length_range] at hsplit
  have h2 : 2 ≤ List.countP
      (fun k => ¬(decide (k ≠ i0) && decide (k ≠ i1)))
      (List.range l.length) := by
    rw [List.countP_eq_length_filter]
    refine two_le_length_of_mem (a := i0) (b := i1) ?_ ?_ (Nat.ne_of_lt h01)
    · rw [List.mem_filter, List.mem_range]
      exact ⟨by omega, by simp⟩
    · rw [List.mem_filter, List.mem_range]
      exact ⟨h1, by simp⟩
  omega

/-- A successful run of the fueled merge loop ends at a list over which
a full scanning pass finds nothing to merge, and never grows the
list. -/
theorem mergeLoopFuel_ok :
    ∀ (fuel : ℕ) (l res : List BareHull),
      mergeLoopFuel fuel l = some res →
      scanPairs res (pairsIdx res.length) = some none ∧
        res.length ≤ l.length := by
  intro fuel
  induction fuel with
  | zero => intro l res h; cases h
  | succ f ih =>
      intro l res h
      unfold mergeLoopFuel at h
      rcases hscan : scanPairs l (pairsIdx l.length) with _ | ⟨_ | t⟩
      · rw [hscan] at h; cases h
      · rw [hscan] at h
        injection h with h'
        subst h'
        exact ⟨hscan, le_refl _⟩
      · rw [hscan] at h
        obtain ⟨hres, hlen⟩ := ih _ _ h
        refine ⟨hres, hlen.trans ?_⟩
        obtain ⟨h01, h1⟩ :=
          pairsIdx_lt (scanPairs_mem_of_found l _ t.1 t.2.1 t.2.2 (by
            rw [hscan]))
        exact (removeTwo_cons_length_lt t.1 t.2.1 l t.2.2 h01 h1).le

/-- C5: the iterative merge driver reaches a fixed point and is
idempotent: the scanning loop of create_compound_bare_hull is a total
function of the input list (embedded with fuel one more than the list
length, which suffices because each successful merge strictly shrinks
the list, as the last conjunct states); whenever it yields a boundary
list, a full pass over that list finds no mergeable pair, re-running the
driver on it returns it unchanged, and its length never exceeds the
input's. -/
theorem merge_loop_fixed_point (l res : List BareHull)
    (h : mergeLoopO l = some res) :
    scanPairs res (pairsIdx res.length) = some none ∧
    mergeLoopO res = some res ∧
    res.length ≤ l.length ∧
    (∀ (L : List BareHull) (i0 i1 : ℕ) (m : BareHull),
      scanPairs L (pairsIdx L.length) = some (some (i0, i1, m)) →
      (m :: removeTwo i0 i1 L).length < L.length) := by
  obtain ⟨hscan, hlen⟩ := mergeLoopFuel_ok _ l res h
  refine ⟨hscan, ?_, hlen, ?_⟩
  · unfold mergeLoopO mergeLoopFuel
    rw [hscan]
  · intro L i0 i1 m hfound
    obtain ⟨h01, h1⟩ :=
      pairsIdx_lt (scanPairs_mem_of_found L _ i0 i1 m hfound)
    exact removeTwo_cons_length_lt i0 i1 L m h01 h1

/-- C5 witness: the unit square and the far square cannot merge, so the
driver returns them unchanged and re-running it is the identity. -/
theorem merge_loop_fixed_point_witness :
    mergeLoopO [unitSquare, farSquare] = some [unitSquare, farSquare] ∧
    mergeLoopO [unitSquare, farSquare] = some [unitSquare, farSquare] ∧
    ([unitSquare, farSquare] : List BareHull).length ≤ 2 :=
  ⟨by decide,
   ((merge_loop_fixed_point [unitSquare, farSquare] [unitSquare, farSquare]
      (by decide)).2.1),
   by decide⟩

/-- Cross product is additive in its left argument over subtraction. -/
theorem cross_vsub_left (a b c : Q2) :
    cross (vsub a b) c = cross a c - cross b c := by
  unfold cross vsub; ring

/-- Cross product is additive in its left argument over addition. -/
theorem cross_vadd_left (a b c : Q2) :
    cross (vadd a b) c = cross a c + cross b c := by
  unfold cross vadd; ring

/-- Cross product scales in its left argument. -/
theorem cross_vscale_left (t : ℚ) (a b : Q2) :
    cross (vscale t a) b = t * cross a b := by
  unfold cross vscale; ring

/-- The cross product of a vector with itself vanishes. -/
theorem cross_self (a : Q2) : cross a a = 0 := by
  unfold cross; ring

/-- The cross product is antisymmetric. -/
theorem cross_comm_neg (a b : Q2) : cross a b = -cross b a := by
  unfold cross; ring

/-- The sign function vanishes exactly on zero. -/
theorem qsign_eq_zero_iff (q : ℚ) : qsign q = 0 ↔ q = 0 := by
  unfold qsign
  split_ifs with h1 h2
  · constructor
    · intro h; cases h
    · intro h; rw [h] at h1; exact absurd h1 (lt_irrefl 0)
  · simp [h2]
  · constructor
    · intro h; cases h
    · intro h; exact absurd h h2

/-- The sign of a negative rational is minus one. -/
theorem qsign_of_neg {q : ℚ} (h : q < 0) : qsign q = -1 := by
  unfold qsign
  rw [if_pos h]

/-- A vector with vanishing cross product against a nonzero vector is a
scalar multiple of it. -/
theorem parallel_of_cross_eq_zero {a b : Q2} (h : cross a b = 0)
    (hb : b ≠ (0, 0)) : ∃ t : ℚ, a = vscale t b := by
  unfold cross at h
  by_cases hbx : b.1 = 0
  · have hby : b.2 ≠ 0 := by
      intro hy
      exact hb (Prod.ext hbx hy)
    refine ⟨a.2 / b.2, Prod.ext ?_ ?_⟩
    · have ha1 : a.1 = 0 := by
        rw [hbx] at h
        have : a.1 * b.2 = 0 := by linarith
        rcases mul_eq_zero.1 this with h' | h'
        · exact h'
        · exact absurd h' hby
      simp [vscale, hbx, ha1]
    · simp [vscale]
      field_simp
  · refine ⟨a.1 / b.1, Prod.ext ?_ ?_⟩
    · simp [vscale]
      field_simp
    · simp [vscale]
      field_simp
      linarith

/-- Vertex one is vertex zero translated along edge zero, and so on:
the edge vector definition telescopes. -/
theorem vtx_succ (verts : List Q2) (i : ℕ) :
    vtx verts (i + 1) = vadd (vtx verts i) (evec verts i) := by
  unfold evec vadd vsub
  exact Prod.ext (by ring) (by ring)

/-- A point cannot have sign zero against the first three edges of a
locally strictly convex vertex cycle. -/
theorem not_sgn_zero_012 (verts : List Q2) (p : Q2)
    (hn : 3 ≤ verts.length)
    (hturn : ∀ i < verts.length,
      0 < cross (evec verts i) (evec verts (i + 1)))
    (h0 : cross (vsub p (vtx verts 0)) (evec verts 0) = 0)
    (h1 : cross (vsub p (vtx verts 1)) (evec verts 1) = 0)
    (h2 : cross (vsub p (vtx verts 2)) (evec verts 2) = 0) : False := by
  have ht0 := hturn 0 (by omega)
  have ht1 := hturn 1 (by omega)
  have he0 : evec verts 0 ≠ (0, 0) := by
    intro he
    rw [he] at ht0
    unfold cross at ht0
    simp at ht0
  obtain ⟨t, hpt⟩ := parallel_of_cross_eq_zero h0 he0
  have hstep : vsub p (vtx verts 1) = vscale (t - 1) (evec verts 0) := by
    have hv1 := vtx_succ verts 0
    have : vsub p (vtx verts 1)
        = vsub (vsub p (vtx verts 0)) (evec verts 0) := by
      rw [hv1]
      unfold vsub vadd
      exact Prod.ext (by ring) (by ring)
    rw [this, hpt]
    unfold vscale vsub
    exact Prod.ext (by ring) (by ring)
  have ht : t = 1 := by
    rw [hstep, cross_vscale_left] at h1
    rcases mul_eq_zero.1 h1 with h' | h'
    · linarith
    · rw [show (0:ℕ) + 1 = 1 from rfl] at ht0
      linarith
  have hp1 : vsub p (vtx verts 1) = (0, 0) := by
    rw [hstep, ht]
    unfold vscale
    simp
  have hp2 : vsub p (vtx verts 2) = vscale (-1) (evec verts 1) := by
    have hv2 := vtx_succ verts 1
    have hdiff : vsub p (vtx verts 2)
        = vsub (vsub p (vtx verts 1)) (evec verts 1) := by
      rw [hv2]
      unfold vsub vadd
      exact Prod.ext (by ring) (by ring)
    rw [hdiff, hp1]
    unfold vscale vsub
    exact Prod.ext (by ring) (by ring)
  rw [hp2, cross_vscale_left] at h2
  rw [show (1:ℕ) + 1 = 2 from rfl] at ht1
  linarith

/-- Characterization of the point-in-hull loop: a point survives iff
every edge sign equals the first edge sign. -/
theorem ptInHull_iff_all (p : Q2) (verts : List Q2) :
    ptInHull p verts = true ↔
      ∀ i < verts.length, sgnAt verts p i = sgnAt verts p 0 := by
  unfold ptInHull
  simp [List.all_eq_true]

/-- A list of nonpositive rationals has nonpositive sum. -/
theorem sum_nonpos_of_all : ∀ {l : List ℚ}, (∀ x ∈ l, x ≤ 0) → l.sum ≤ 0
  | [], _ => le_refl 0
  | x :: xs, h => by
      rw [List.sum_cons]
      have hx := h x (List.mem_cons_self x xs)
      have hxs := sum_nonpos_of_all (fun y hy => h y (List.mem_cons_of_mem x hy))
      linarith

/-- A list of nonpositive rationals containing a negative element has
negative sum. -/
theorem sum_neg_of_mem : ∀ {l : List ℚ}, (∀ x ∈ l, x ≤ 0) →
    (∃ x ∈ l, x < 0) → l.sum < 0
  | [], _, hx => by simp at hx
  | x :: xs, h, hx => by
      rw [List.sum_cons]
      have hxle := h x (List.mem_cons_self x xs)
      have hxsle := sum_nonpos_of_all
        (fun y hy => h y (List.mem_cons_of_mem x hy))
      rcases hx with ⟨y, hy, hyneg⟩
      rcases List.mem_cons.1 hy with rfl | hymem
      · linarith
      · have := sum_neg_of_mem
          (fun z hz => h z (List.mem_cons_of_mem x hz)) ⟨y, hymem, hyneg⟩
        linarith

/-- Cross products against a fixed edge sum over a vertex list to the
cross product of the coordinate sums. -/
theorem map_cross_sum (s e : Q2) : ∀ (l : List Q2),
    (l.map (fun v => cross (vsub v s) e)).sum
      = cross (vsub ((l.map Prod.fst).sum, (l.map Prod.snd).sum)
          (vscale (l.length : ℚ) s)) e
  | [] => by simp [cross, vsub, vscale]
  | v :: vs => by
      rw [List.map_cons, List.sum_cons, map_cross_sum s e vs]
      unfold cross vsub vscale
      simp only [List.map_cons, List.sum_cons, List.length_cons]
      push_cast
      ring

/-- Every cyclic vertex lookup lands in the vertex list. -/
theorem vtx_mem (verts : List Q2) (hne : verts ≠ []) (i : ℕ) :
    vtx verts i ∈ verts := by
  unfold vtx
  have hlt : i % verts.length < verts.length :=
    Nat.mod_lt i (List.length_pos.2 hne)
  rw [List.getD_eq_getElem _ _ hlt]
  exact List.getElem_mem hlt

/-- The second-next vertex difference is the sum of two consecutive edge
vectors. -/
theorem vsub_vtx_two (verts : List Q2) (i : ℕ) :
    vsub (vtx verts (i + 2)) (vtx verts i)
      = vadd (evec verts (i + 1)) (evec verts i) := by
  unfold evec vadd vsub
  exact Prod.ext (by ring) (by ring)

/-- The centroid lies strictly on the negative side of every edge of a
convex counterclockwise vertex cycle. -/
theorem centroid_edge_neg (verts : List Q2) (hn : 3 ≤ verts.length)
    (hturn : ∀ i < verts.length,
      0 < cross (evec verts i) (evec verts (i + 1)))
    (hside : ∀ i < verts.length, ∀ v ∈ verts,
      cross (vsub v (vtx verts i)) (evec verts i) ≤ 0)
    (i : ℕ) (hi : i < verts.length) :
    cross (vsub (centroidPt verts) (vtx verts i)) (evec verts i) < 0 := by
  have hne : verts ≠ [] := by
    intro h
    rw [h] at hn
    simp at hn
  have hLpos : 0 < (verts.length : ℚ) := by
    have : 0 < verts.length := List.length_pos.2 hne
    exact_mod_cast this
  have hsum : ((verts.map
      (fun v => cross (vsub v (vtx verts i)) (evec verts i))).sum) < 0 := by
    apply sum_neg_of_mem
    · intro x hx
      rcases List.mem_map.1 hx with ⟨v, hv, rfl⟩
      exact hside i hi v hv
    · refine ⟨cross (vsub (vtx verts (i + 2)) (vtx verts i)) (evec verts i),
        List.mem_map.2 ⟨vtx verts (i + 2), vtx_mem verts hne _, rfl⟩, ?_⟩
      rw [vsub_vtx_two, cross_vadd_left, cross_self, add_zero]
      have := hturn i hi
      rw [cross_comm_neg]
      linarith
  rw [map_cross_sum] at hsum
  have hkey : cross (vsub ((verts.map Prod.fst).sum,
        (verts.map Prod.snd).sum) (vscale (verts.length : ℚ) (vtx verts i)))
        (evec verts i)
      = (verts.length : ℚ)
        * cross (vsub (centroidPt verts) (vtx verts i)) (evec verts i) := by
    unfold centroidPt cross vsub vscale
    field_simp
  rw [hkey] at hsum
  by_contra hcon
  push_neg at hcon
  exact absurd hsum (not_lt.2 (mul_nonneg hLpos.le hcon))

/-- Generic duplicate-freedom of the successor-map entries built from
one hull's segment list: when the per-segment intersection index lists
are duplicate-free, pairwise disjoint, and live above the vertex-index
range, while the segment start and end indices are themselves
duplicate-free and below that range, the constructed source-index list
and destination-index list are both duplicate-free. -/
theorem succEntries_nodup (off nall : ℕ) (arena : List Q2)
    (pts : List Q2) (isegs : List (ℕ × ℕ)) (ivals : ℕ → List ℕ)
    (hA : ∀ a, (ivals a).Nodup)
    (hB : ∀ a a', a ≠ a' → ∀ x, x ∈ ivals a → x ∈ ivals a' → False)
    (hC : ∀ a x, x ∈ ivals a → nall ≤ x)
    (hfstN : (isegs.map Prod.fst).Nodup)
    (hsndN : (isegs.map Prod.snd).Nodup)
    (hfstL : ∀ ab ∈ isegs, off + ab.1 < nall)
    (hsndL : ∀ ab ∈ isegs, off + ab.2 < nall) :
    ((succEntries off arena pts isegs ivals).map Prod.fst).Nodup ∧
    ((succEntries off arena pts isegs ivals).map Prod.snd).Nodup := by
  have hsortN : ∀ a, (sortByDsq arena (pts.getD a 0) (ivals a)).Nodup :=
    fun a => ((List.mergeSort_perm (ivals a) _).nodup_iff).2 (hA a)
  have hsortMem : ∀ a x, x ∈ sortByDsq arena (pts.getD a 0) (ivals a) →
      x ∈ ivals a := by
    intro a x hx
    unfold sortByDsq at hx
    exact List.mem_mergeSort.1 hx
  have hfstPW : isegs.Pairwise (fun x y => x.1 ≠ y.1) :=
    (List.pairwise_map.1 hfstN)
  have hsndPW : isegs.Pairwise (fun x y => x.2 ≠ y.2) :=
    (List.pairwise_map.1 hsndN)
  constructor
  · unfold succEntries
    rw [List.map_flatMap]
    simp only [segChain_keys]
    rw [List.nodup_flatMap]
    constructor
    · intro ab hab
      rw [List.nodup_cons]
      refine ⟨fun hmem => ?_, hsortN ab.1⟩
      have := hC ab.1 _ (hsortMem ab.1 _ hmem)
      have := hfstL ab hab
      omega
    · refine hfstPW.imp_of_mem ?_
      intro ab ab' hab hab' hne x hx hx'
      rcases List.mem_cons.1 hx with rfl | hx
      · rcases List.mem_cons.1 hx' with heq | hx'
        · exact hne (by omega)
        · have := hC ab'.1 _ (hsortMem ab'.1 _ hx')
          have := hfstL ab hab
          omega
      · rcases List.mem_cons.1 hx' with rfl | hx'
        · have := hC ab.1 _ (hsortMem ab.1 _ hx)
          have := hfstL ab' hab'
          omega
        · exact hB ab.1 ab'.1 hne x (hsortMem ab.1 _ hx)
            (hsortMem ab'.1 _ hx')
  · unfold succEntries
    rw [List.map_flatMap]
    simp only [segChain_dsts]
    rw [List.nodup_flatMap]
    constructor
    · intro ab hab
      refine (hsortN ab.1).append (List.nodup_singleton _) ?_
      intro x hx hx'
      rw [List.mem_singleton] at hx'
      subst hx'
      have := hC ab.1 _ (hsortMem ab.1 _ hx)
      have := hsndL ab hab
      omega
    · refine (hfstPW.and hsndPW).imp_of_mem ?_
      intro ab ab' hab hab' hne x hx hx'
      obtain ⟨hne1, hne2⟩ := hne
      rcases List.mem_append.1 hx with hx | hx
      · rcases List.mem_append.1 hx' with hx' | hx'
        · exact hB ab.1 ab'.1 hne1 x (hsortMem ab.1 _ hx)
            (hsortMem ab'.1 _ hx')
        · rw [List.mem_singleton] at hx'
          subst hx'
          have := hC ab.1 _ (hsortMem ab.1 _ hx)
          have := hsndL ab' hab'
          omega
      · rcases List.mem_append.1 hx' with hx' | hx'
        · rw [List.mem_singleton] at hx
          subst hx
          have := hC ab'.1 _ (hsortMem ab'.1 _ hx')
          have := hsndL ab hab
          omega
        · rw [List.mem_singleton] at hx hx'
          subst hx
          exact hne2 (by omega)

/-- The arena indices stored for one segment of the first hull are
duplicate-free. -/
theorem lookup0_vals_nodup (b0 b1 : BareHull) (a : ℕ) :
    ((lookup0 b0 b1 a).map (fun x => x.2)).Nodup := by
  unfold lookup0
  rw [List.map_map]
  exact List.Nodup.map (fun x y hxy => by simp at hxy; omega)
    (((List.nodup_range _).filter _))

/-- Membership characterization of the arena indices stored for one
segment of the first hull. -/
theorem lookup0_vals_mem (b0 b1 : BareHull) (a x : ℕ)
    (hx : x ∈ (lookup0 b0 b1 a).map (fun t => t.2)) :
    ∃ k, k < (interPairs b0 b1).length ∧
      ((interPairs b0 b1).getD k noInter).1 = a ∧ x = nAll b0 b1 + k := by
  unfold lookup0 at hx
  rw [List.map_map] at hx
  rcases List.mem_map.1 hx with ⟨k, hk, rfl⟩
  rcases List.mem_filter.1 hk with ⟨hkr, hcond⟩
  exact ⟨k, List.mem_range.1 hkr, by simpa using hcond, rfl⟩

/-- The arena indices stored for one segment of the second hull are
duplicate-free. -/
theorem lookup1_vals_nodup (b0 b1 : BareHull) (a : ℕ) :
    ((lookup1 b0 b1 a).map (fun x => x.2)).Nodup := by
  unfold lookup1
  rw [List.map_map]
  exact List.Nodup.map (fun x y hxy => by simp at hxy; omega)
    (((List.nodup_range _).filter _))

/-- Membership characterization of the arena indices stored for one
segment of the second hull. -/
theorem lookup1_vals_mem (b0 b1 : BareHull) (a x : ℕ)
    (hx : x ∈ (lookup1 b0 b1 a).map (fun t => t.2)) :
    ∃ k, k < (interPairs b0 b1).length ∧
      ((interPairs b0 b1).getD k noInter).2.1 = a ∧
      x = nAll b0 b1 + k := by
  unfold lookup1 at hx
  rw [List.map_map] at hx
  rcases List.mem_map.1 hx with ⟨k, hk, rfl⟩
  rcases List.mem_filter.1 hk with ⟨hkr, hcond⟩
  exact ⟨k, List.mem_range.1 hkr, by simpa using hcond, rfl⟩

/-- The segment start indices of a nonempty hull enumerate its vertex
indices. -/
theorem isegs_fst (h : BareHull) (hne : h.points ≠ []) :
    h.isegs.map Prod.fst = List.range h.points.length := by
  have hlen : h.points.length ≠ 0 := fun hl => hne (List.length_eq_zero.1 hl)
  unfold BareHull.isegs
  rw [if_neg hlen, List.map_append, List.map_map]
  rw [show (Prod.fst ∘ fun i : ℕ => (i, i + 1)) = id from rfl, List.map_id]
  rw [show List.map Prod.fst [(h.points.length - 1, 0)]
      = [h.points.length - 1] from rfl]
  rw [← List.range_succ]
  congr 1
  omega

/-- The segment end indices of a nonempty hull are duplicate-free. -/
theorem isegs_snd_nodup (h : BareHull) (hne : h.points ≠ []) :
    (h.isegs.map Prod.snd).Nodup := by
  have hlen : h.points.length ≠ 0 := fun hl => hne (List.length_eq_zero.1 hl)
  unfold BareHull.isegs
  rw [if_neg hlen, List.map_append, List.map_map]
  rw [show (Prod.snd ∘ fun i : ℕ => (i, i + 1)) = fun i => i + 1 from rfl]
  rw [show List.map Prod.snd [(h.points.length - 1, 0)] = [0] from rfl]
  refine List.Nodup.append ?_ (List.nodup_singleton _) ?_
  · exact List.Nodup.map (fun x y hxy => by omega) (List.nodup_range _)
  · intro x hx hx'
    rw [List.mem_singleton] at hx'
    subst hx'
    rcases List.mem_map.1 hx with ⟨i, _, hi⟩
    omega

/-- Segment index pairs of a nonempty hull stay below the vertex
count. -/
theorem isegs_mem_bounds (h : BareHull) (hne : h.points ≠ []) :
    ∀ ab ∈ h.isegs, ab.1 < h.points.length ∧ ab.2 < h.points.length := by
  have hlen : h.points.length ≠ 0 := fun hl => hne (List.length_eq_zero.1 hl)
  intro ab hab
  unfold BareHull.isegs at hab
  rw [if_neg hlen] at hab
  rcases List.mem_append.1 hab with hab | hab
  · rcases List.mem_map.1 hab with ⟨i, hi, rfl⟩
    rw [List.mem_range] at hi
    exact ⟨by omega, by omega⟩
  · rw [List.mem_singleton] at hab
    subst hab
    exact ⟨by omega, by omega⟩

/-- C9: under an even, nonzero intersection count (the branch of
merge_bare_hulls that builds the two successor maps, with each segment
pair contributing at most one intersection point), each per-hull
successor map is functional and injective: the constructed source-index
list and destination-index list of both hulls are duplicate-free, which
is exactly the condition that the assertions src_idx not in new_hull and
dst_idx not in dst_set check on every insertion, so they never fail. -/
theorem succ_maps_no_assert_failure (b0 b1 : BareHull)
    (h0 : b0.points ≠ []) (h1 : b1.points ≠ [])
    (_heven : (interPairs b0 b1).length % 2 = 0)
    (_hnz : (interPairs b0 b1).length ≠ 0) :
    ((succ0 b0 b1).map Prod.fst).Nodup ∧
    ((succ0 b0 b1).map Prod.snd).Nodup ∧
    ((succ1 b0 b1).map Prod.fst).Nodup ∧
    ((succ1 b0 b1).map Prod.snd).Nodup := by
  have hn0pos : 0 < b0.points.length := List.length_pos.2 h0
  have hn1pos : 0 < b1.points.length := List.length_pos.2 h1
  have H0 := succEntries_nodup 0 (nAll b0 b1) (allPoints b0 b1) b0.points
    b0.isegs (fun a => (lookup0 b0 b1 a).map (fun x => x.2))
    (fun a => lookup0_vals_nodup b0 b1 a)
    (fun a a' hne x hx hx' => by
      obtain ⟨k, hk, hka, hxk⟩ := lookup0_vals_mem b0 b1 a x hx
      obtain ⟨k', hk', hka', hxk'⟩ := lookup0_vals_mem b0 b1 a' x hx'
      have hkk : k = k' := by omega
      subst hkk
      rw [hka] at hka'
      exact hne hka')
    (fun a x hx => by
      obtain ⟨k, _, _, hxk⟩ := lookup0_vals_mem b0 b1 a x hx
      omega)
    (by rw [isegs_fst b0 h0]; exact List.nodup_range _)
    (isegs_snd_nodup b0 h0)
    (fun ab hab => by
      have := (isegs_mem_bounds b0 h0 ab hab).1
      unfold nAll
      omega)
    (fun ab hab => by
      have := (isegs_mem_bounds b0 h0 ab hab).2
      unfold nAll
      omega)
  have H1 := succEntries_nodup b0.points.length (nAll b0 b1)
    (allPoints b0 b1) b1.points
    b1.isegs (fun a => (lookup1 b0 b1 a).map (fun x => x.2))
    (fun a => lookup1_vals_nodup b0 b1 a)
    (fun a a' hne x hx hx' => by
      obtain ⟨k, hk, hka, hxk⟩ := lookup1_vals_mem b0 b1 a x hx
      obtain ⟨k', hk', hka', hxk'⟩ := lookup1_vals_mem b0 b1 a' x hx'
      have hkk : k = k' := by omega
      subst hkk
      rw [hka] at hka'
      exact hne hka')
    (fun a x hx => by
      obtain ⟨k, _, _, hxk⟩ := lookup1_vals_mem b0 b1 a x hx
      omega)
    (by rw [isegs_fst b1 h1]; exact List.nodup_range _)
    (isegs_snd_nodup b1 h1)
    (fun ab hab => by
      have := (isegs_mem_bounds b1 h1 ab hab).1
      unfold nAll
      omega)
    (fun ab hab => by
      have := (isegs_mem_bounds b1 h1 ab hab).2
      unfold nAll
      omega)
  exact ⟨H0.1, H0.2, H1.1, H1.2⟩

/-- C9 witness: the two crossing unit squares (two intersections, even
and nonzero) build duplicate-free successor maps. -/
theorem succ_maps_no_assert_failure_witness :
    (unitSquare.points ≠ [] ∧ shiftedSquare.points ≠ [] ∧
      (interPairs unitSquare shiftedSquare).length % 2 = 0 ∧
      (interPairs unitSquare shiftedSquare).length ≠ 0) ∧
    ((succ0 unitSquare shiftedSquare).map Prod.fst).Nodup :=
  ⟨⟨by decide, by decide, by decide, by decide⟩,
   (succ_maps_no_assert_failure unitSquare shiftedSquare (by decide)
     (by decide) (by decide) (by decide)).1⟩

/-- C6: for a convex counterclockwise vertex cycle (at least three
vertices, strictly convex turns, all vertices weakly on the negative
side of every edge), pts_in_hull classifies a point as inside exactly
when the sign of the cross product of (point minus edge start) with the
edge vector is identical and nonzero across all edges; consequently the
mean of the vertices is classified inside, while the midpoint of the
first edge, a point lying exactly on an edge, is classified not
inside. -/
theorem pt_in_hull_strict_sign (verts : List Q2) (hn : 3 ≤ verts.length)
    (hturn : ∀ i < verts.length,
      0 < cross (evec verts i) (evec verts (i + 1)))
    (hside : ∀ i < verts.length, ∀ v ∈ verts,
      cross (vsub v (vtx verts i)) (evec verts i) ≤ 0) :
    (∀ p : Q2, ptInHull p verts = true ↔
        ∃ s : Int, s ≠ 0 ∧ ∀ i < verts.length, sgnAt verts p i = s) ∧
    ptInHull (centroidPt verts) verts = true ∧
    ptInHull (midPt (vtx verts 0) (vtx verts 1)) verts = false := by
  have hall_zero_imp : ∀ p : Q2,
      (∀ i < verts.length, sgnAt verts p i = 0) → False := by
    intro p hz
    apply not_sgn_zero_012 verts p hn hturn
    · exact (qsign_eq_zero_iff _).1 (hz 0 (by omega))
    · exact (qsign_eq_zero_iff _).1 (hz 1 (by omega))
    · exact (qsign_eq_zero_iff _).1 (hz 2 (by omega))
  refine ⟨fun p => ⟨fun hin => ?_, fun hex => ?_⟩, ?_, ?_⟩
  · have hall := (ptInHull_iff_all p verts).1 hin
    refine ⟨sgnAt verts p 0, fun h0 => ?_, hall⟩
    apply hall_zero_imp p
    intro i hi
    rw [hall i hi]
    exact h0
  · obtain ⟨s, _, hall⟩ := hex
    rw [ptInHull_iff_all]
    intro i hi
    rw [hall i hi, hall 0 (by omega)]
  · rw [ptInHull_iff_all]
    intro i hi
    have h0 := centroid_edge_neg verts hn hturn hside 0 (by omega)
    have hi' := centroid_edge_neg verts hn hturn hside i hi
    unfold sgnAt
    rw [qsign_of_neg hi', qsign_of_neg h0]
  · have hm0 : sgnAt verts (midPt (vtx verts 0) (vtx verts 1)) 0 = 0 := by
      unfold sgnAt
      apply (qsign_eq_zero_iff _).2
      have hmid : vsub (midPt (vtx verts 0) (vtx verts 1)) (vtx verts 0)
          = vscale (1/2) (evec verts 0) := by
        unfold midPt vscale evec vsub vtx
        exact Prod.ext (by ring) (by ring)
      rw [hmid, cross_vscale_left, cross_self, mul_zero]
    by_contra hmt
    rw [Bool.not_eq_false] at hmt
    have hall := (ptInHull_iff_all _ verts).1 hmt
    apply hall_zero_imp (midPt (vtx verts 0) (vtx verts 1))
    intro i hi
    rw [hall i hi]
    exact hm0

/-- C6 witness: the unit square satisfies the convexity hypotheses and
its centroid is classified inside. -/
theorem pt_in_hull_strict_sign_witness :
    3 ≤ squareVerts.length ∧
    ptInHull (centroidPt squareVerts) squareVerts = true :=
  ⟨by decide,
   (pt_in_hull_strict_sign squareVerts (by decide) (by decide)
     (by decide)).2.1⟩

/-- C8 counterexample: two concrete connection ends whose rendered chord
width falls strictly below the quarter-pixel minimum.  With zero
neighbors the wedge angle is zero, np.sign returns zero, and the
recomputed angle collapses to zero, so the chord width is zero even
though the radius guard passes; with pixel radius one tenth the guard
min_width less than the diameter fails, the fixup is skipped, and the
chord width is one fifth. -/
theorem ribbon_width_counterexample :
    endChordWidth 0 1 1 1 = 0 ∧ endChordWidth 1 1 1 (1/10) = 1/5 ∧
    (0 : ℝ) < 1/4 ∧ (1/5 : ℝ) < 1/4 := by
  refine ⟨?_, ?_, by norm_num, by norm_num⟩
  · have h0 : wedgeTheta 0 1 1 = 0 := by simp [wedgeTheta]
    unfold endChordWidth endTheta adjustedTheta
    rw [h0]
    simp [rsign, minWidth, Real.sin_zero]
  · have h1 : wedgeTheta 1 1 1 = Real.pi / 2 := by
      simp [wedgeTheta]
    unfold endChordWidth endTheta adjustedTheta
    rw [h1]
    rw [if_neg (by norm_num [minWidth])]
    rw [Real.sin_pi_div_two]
    norm_num

/-- C8 amended: for a connection end with strictly positive neighbor
count, positive cell count, positive global ratio, and minimum width
strictly below the end's pixel diameter, the rendered chord width is at
least the quarter-pixel minimum (when the nominal wedge angle would make
the chord narrower, the angle is recomputed from asin so the chord is
exactly the minimum width). -/
theorem ribbon_min_width (n nc mr r : ℝ) (hn : 0 < n) (hnc : 0 < nc)
    (hmr : 0 < mr) (hr : minWidth < 2 * r) :
    minWidth ≤ endChordWidth n nc mr r := by
  have hrpos : 0 < r := by
    have : (0 : ℝ) < minWidth := by norm_num [minWidth]
    linarith
  have hθ : 0 < wedgeTheta n nc mr := by
    unfold wedgeTheta
    exact mul_pos (by positivity) (div_pos hn (mul_pos hnc hmr))
  unfold endChordWidth endTheta adjustedTheta
  rw [if_pos hr]
  by_cases hw : 2 * r * |Real.sin (wedgeTheta n nc mr)| < minWidth
  · rw [if_pos hw]
    have hs : rsign (wedgeTheta n nc mr) = 1 := by
      unfold rsign
      rw [if_neg (not_lt.2 hθ.le), if_neg (ne_of_gt hθ)]
    rw [hs, one_mul]
    have hx0 : 0 ≤ 1 / 2 * minWidth / r :=
      div_nonneg (by norm_num [minWidth]) hrpos.le
    have hx1 : 1 / 2 * minWidth / r ≤ 1 := by
      rw [div_le_one hrpos]
      unfold minWidth at *
      linarith
    rw [Real.sin_arcsin (by linarith) hx1, abs_of_nonneg hx0]
    rw [show 2 * r * (1 / 2 * minWidth / r) = minWidth by
      field_simp]
  · rw [if_neg hw]
    exact not_lt.1 hw

/-- C8 amended witness: a connection end with one neighbor among one
cell, unit ratio and unit radius keeps the quarter-pixel minimum. -/
theorem ribbon_min_width_witness :
    (0 : ℝ) < 1 ∧ minWidth < 2 * 1 ∧ minWidth ≤ endChordWidth 1 1 1 1 :=
  ⟨by norm_num, by norm_num [minWidth],
   ribbon_min_width 1 1 1 1 (by norm_num) (by norm_num) (by norm_num)
     (by norm_num [minWidth])⟩

end CellConst


